import Mathlib

/-!
# Verification of the ponto-digital attendance core

Shallow embedding of the client-side attendance engine:

* the per-day attendance aggregator (`processedDailyEntries` in
  `src/components/EmployeeDashboard.tsx`, duplicated as
  `TimeReport.processedEntries` in `src/components/Login.tsx`),
* the running-balance accumulator (`entriesWithAccumulatedBalance`),
* the "currently working" summary counter (`summaryStats`),
* the haversine geofence check (`calculateDistance` and the geolocation
  effect of `EmployeeDashboard`),
* the clock-action button state machine (`lastAction` / `actionButtons`),
* the backup import (`handleImportData` in `src/App.tsx`).

Timestamps are modelled as integers (milliseconds since the epoch, as
returned by `Date.getTime()`); hour quantities computed by JavaScript
floating-point division are modelled as exact rationals.  The calendar-day
key derived by `toLocaleDateString`/`isSameDay` in the local timezone is
modelled by flooring the timestamp to a day index, which preserves exactly
what the aggregation logic uses: a function from instants to day keys under
which equal instants fall on the same day.
-/

/-- The five event kinds of `TimeEntryType` in `src/types.ts`. -/
inductive TimeEntryType where
  | entrada
  | inicioIntervalo
  | fimIntervalo
  | saida
  | ferias
deriving DecidableEq, Repr

/-- A clock event (`TimeEntry` in `src/types.ts`): identifier, owner,
instant (ms), kind and free-text note. -/
structure TimeEntry where
  id : String
  userId : String
  timestamp : Int
  type : TimeEntryType
  observation : String
deriving DecidableEq, Repr

/-- Milliseconds per hour. -/
def msPerHour : Int := 3600000

/-- Milliseconds per day. -/
def msPerDay : Int := 86400000

/-- Calendar-day key of an instant: models the grouping performed by
`timestamp.toLocaleDateString('pt-BR')` and the `isSameDay` helper. -/
def dayKey (t : Int) : Int := Int.fdiv t msPerDay

/-- Stable insertion of `e` into a list sorted in ascending `key` order:
`e` goes after every element whose key is `≤ key e`, exactly as a stable
ascending sort places it.  Models the stability of `Array.prototype.sort`. -/
def insertK (key : α → Int) (e : α) : List α → List α
  | [] => [e]
  | f :: rest => if key f ≤ key e then f :: insertK key e rest else e :: f :: rest

/-- Tail of a stable insertion sort: insert the remaining elements, left to
right, into the already-sorted accumulator. -/
def sortKAux (key : α → Int) (acc : List α) : List α → List α
  | [] => acc
  | e :: l => sortKAux key (insertK key e acc) l

/-- Stable sort in ascending `key` order (models `Array.prototype.sort`
with a numeric comparator, which is stable). -/
def sortK (key : α → Int) (l : List α) : List α := sortKAux key [] l

/-- Ascending sort of entries by timestamp, as in
`.sort((a, b) => a.timestamp.getTime() - b.timestamp.getTime())`. -/
def sortByTime (l : List TimeEntry) : List TimeEntry :=
  sortK (fun e => e.timestamp) l

/-- Append `e` to the group keyed `k`, creating the group at the end when the
key is new: models `groupedByDay[dateKey].push(entry)` on a plain JS object
(string keys kept in insertion order). -/
def addToGroups (k : Int) (e : TimeEntry) :
    List (Int × List TimeEntry) → List (Int × List TimeEntry)
  | [] => [(k, [e])]
  | (k', g) :: rest =>
      if k' = k then (k', g ++ [e]) :: rest else (k', g) :: addToGroups k e rest

/-- Fold of `addToGroups` over the input events. -/
def groupsAux (gs : List (Int × List TimeEntry)) :
    List TimeEntry → List (Int × List TimeEntry)
  | [] => gs
  | e :: l => groupsAux (addToGroups (dayKey e.timestamp) e gs) l

/-- Grouping of events by calendar day, in first-occurrence order of the day
key: models the `groupedByDay` object built in `processedDailyEntries`
(`src/components/EmployeeDashboard.tsx`, lines 132-140). -/
def groupByDay (l : List TimeEntry) : List (Int × List TimeEntry) :=
  groupsAux [] l

/-- First event of the given kind in a list:
`sortedEntries.find(e => e.type === t)`. -/
def findType (t : TimeEntryType) (l : List TimeEntry) : Option TimeEntry :=
  l.find? (fun e => e.type = t)

/-- `; `-join of the list of notes, dropping empty ones:
`entries.map(e => e.observation).filter(Boolean).join('; ')`. -/
def joinParts : List String → String
  | [] => ""
  | [x] => x
  | x :: xs => x ++ "; " ++ joinParts xs

/-- Concatenated observation of a day group. -/
def observationOf (l : List TimeEntry) : String :=
  joinParts ((l.map (fun e => e.observation)).filter (fun s => s ≠ ""))

/-- The derived per-day record (`ProcessedDayEntry` in
`src/components/EmployeeDashboard.tsx`): the calendar-day key, the four
canonical slots (as instants), worked hours, day balance, status string,
concatenated observation, and the day's raw events in ascending order. -/
structure DayRec where
  date : Int
  entrada : Option Int
  inicioIntervalo : Option Int
  fimIntervalo : Option Int
  saida : Option Int
  workedHours : ℚ
  balance : ℚ
  status : String
  observation : String
  originalEntries : List TimeEntry
deriving DecidableEq, Repr

/-- Millisecond length of the break, when both break slots are present
(`if (inicioIntervalo && fimIntervalo) breakMillis = ...`). -/
def breakMillisOf (inicio fim : Option TimeEntry) : Int :=
  match inicio, fim with
  | some i, some f => f.timestamp - i.timestamp
  | _, _ => 0

/-- Worked milliseconds of a day: `saida - entrada - break` when both bounds
exist, `0` otherwise (the variable stays at its initialisation). -/
def workedMillisOf (entrada saida inicio fim : Option TimeEntry) : Int :=
  match entrada, saida with
  | some ein, some sout =>
      (sout.timestamp - ein.timestamp) - breakMillisOf inicio fim
  | _, _ => 0

/-- Worked hours of a day: `workedMillis > 0 ? workedMillis / (1000*60*60) : 0`,
as an exact rational. -/
def workedHoursOf (entrada saida inicio fim : Option TimeEntry) : ℚ :=
  if 0 < workedMillisOf entrada saida inicio fim then
    ((workedMillisOf entrada saida inicio fim : Int) : ℚ) / (msPerHour : ℚ)
  else 0

/-- Day balance: `(entrada && saida) ? workedHours - workdayHours : 0`. -/
def balanceOf (workday : ℚ) (entrada saida inicio fim : Option TimeEntry) : ℚ :=
  match entrada, saida with
  | some _, some _ => workedHoursOf entrada saida inicio fim - workday
  | _, _ => 0

/-- Day status: `(entrada && saida) ? "Completo" : "Incompleto"`. -/
def statusOf (entrada saida : Option TimeEntry) : String :=
  match entrada, saida with
  | some _, some _ => "Completo"
  | _, _ => "Incompleto"

/-- Day key of the first event (`sortedEntries[0]`); groups are never empty. -/
def dateOfSorted : List TimeEntry → Int
  | e :: _ => dayKey e.timestamp
  | [] => 0

/-- Build the day record from the already-sorted events of one day group:
the body of the `map` in `processedDailyEntries`
(`src/components/EmployeeDashboard.tsx`, lines 142-177).  Every field is
derived from `sortedEntries`, exactly as in the source. -/
def mkFromSorted (workday : ℚ) (s : List TimeEntry) : DayRec :=
  { date := dateOfSorted s
    entrada := (findType .entrada s).map (fun e => e.timestamp)
    inicioIntervalo := (findType .inicioIntervalo s).map (fun e => e.timestamp)
    fimIntervalo := (findType .fimIntervalo s).map (fun e => e.timestamp)
    saida := (findType .saida s).map (fun e => e.timestamp)
    workedHours := workedHoursOf (findType .entrada s) (findType .saida s)
      (findType .inicioIntervalo s) (findType .fimIntervalo s)
    balance := balanceOf workday (findType .entrada s) (findType .saida s)
      (findType .inicioIntervalo s) (findType .fimIntervalo s)
    status := statusOf (findType .entrada s) (findType .saida s)
    observation := observationOf s
    originalEntries := s }

/-- Day record of a (not yet sorted) day group: the group's entries are
first sorted ascending by timestamp. -/
def mkDayRec (workday : ℚ) (g : List TimeEntry) : DayRec :=
  mkFromSorted workday (sortByTime g)

/-- The attendance aggregator `processedDailyEntries`
(`src/components/EmployeeDashboard.tsx`, lines 131-185): group the events
by calendar day, derive one record per group, and sort the records by date
descending for display. -/
def processedDailyEntries (workday : ℚ) (l : List TimeEntry) : List DayRec :=
  sortK (fun r => -r.date) ((groupByDay l).map (fun g => mkDayRec workday g.2))

/-! ## Balance accumulator (`TimeReport.entriesWithAccumulatedBalance`) -/

/-- The fields of a processed entry consumed by the balance accumulator in
`src/components/Login.tsx` (lines 411-434): owner, calendar-day key and day
balance.  The remaining display fields of `ProcessedEntry` do not enter the
accumulation. -/
structure ProcEntry where
  userId : String
  date : Int
  balance : ℚ
deriving DecidableEq, Repr

/-- A processed entry together with its `accumulatedBalance` field
(`{ ...entry, accumulatedBalance }`). -/
structure AccEntry where
  entry : ProcEntry
  accumulatedBalance : ℚ
deriving DecidableEq, Repr

/-- Read of a JS-object key (first matching key of the association list). -/
def lookupA [DecidableEq κ] : List (κ × α) → κ → Option α
  | [], _ => none
  | (k, v) :: rest, k' => if k' = k then some v else lookupA rest k'

/-- Update-or-append on an association list: models assignment
`map[key] = value` on a plain JS object. -/
def setAssoc (m : List (String × α)) (k : String) (v : α) : List (String × α) :=
  match m with
  | [] => [(k, v)]
  | (k', v') :: rest => if k' = k then (k, v) :: rest else (k', v') :: setAssoc rest k v

/-- The accumulation pass over the date-ascending entries: for each entry,
read the user's running total (`accumulatedBalances[entry.userId] || 0`),
add the day balance, store it back, and emit the entry extended with the new
accumulated balance. -/
def accumPass (m : List (String × ℚ)) : List ProcEntry → List AccEntry
  | [] => []
  | e :: l =>
      let nb := (lookupA m e.userId).getD 0 + e.balance
      ⟨e, nb⟩ :: accumPass (setAssoc m e.userId nb) l

/-- `TimeReport.entriesWithAccumulatedBalance`
(`src/components/Login.tsx`, lines 411-434): sort the filtered entries by
date ascending, run the accumulation pass with an empty per-user map, and
reverse back to descending display order. -/
def entriesWithAccumulatedBalance (l : List ProcEntry) : List AccEntry :=
  (accumPass [] (sortK (fun e => e.date) l)).reverse

/-! ## "Currently working" summary counter (`TimeReport.summaryStats`) -/

/-- One step of the `forEach` building `userStatus`:
`userStatus[entry.userId] = entry.type`. -/
def statusStep (m : List (String × TimeEntryType)) (e : TimeEntry) :
    List (String × TimeEntryType) :=
  setAssoc m e.userId e.type

/-- The events of calendar day `d`, sorted ascending by timestamp:
`timeEntries.filter(entry => isSameDay(entry.timestamp, today)).sort(...)`. -/
def entriesOfDay (d : Int) (l : List TimeEntry) : List TimeEntry :=
  sortByTime (l.filter (fun e => dayKey e.timestamp = d))

/-- The `userStatus` map of `summaryStats`: fold the day's events, in
ascending timestamp order, into a per-user map of the last event kind. -/
def userStatusMap (d : Int) (l : List TimeEntry) : List (String × TimeEntryType) :=
  (entriesOfDay d l).foldl statusStep []

/-- The "currently working" counter of `TimeReport.summaryStats`
(`src/components/Login.tsx`, lines 448-461): the number of users whose
status in `userStatusMap` is present and not `Saída`. -/
def currentlyWorking (d : Int) (l : List TimeEntry) : Nat :=
  ((userStatusMap d l).filter (fun kv => kv.2 ≠ TimeEntryType.saida)).length

/-- The last event of user `u` in the list (`null` when the user has none):
used to state what "the most recent event of the current calendar day"
means for one user. -/
def lastEventOf (u : String) (l : List TimeEntry) : Option TimeEntry :=
  (l.filter (fun e => e.userId = u)).getLast?

/-- Modelled from the spec: the "currently working" count as §4.4 and §8 of
the specification describe it — the number of users having at least one
event today whose most recent event of the day (by ascending timestamp) is
not a clock-out. -/
def specCurrentlyWorking (d : Int) (l : List TimeEntry) : Nat :=
  ((((entriesOfDay d l).map (fun e => e.userId)).dedup).filter
    (fun u => match lastEventOf u (entriesOfDay d l) with
      | some e => e.type ≠ TimeEntryType.saida
      | none => False)).length

/-! ## Clock-action buttons (`lastAction` / `actionButtons`) -/

/-- The geolocation check outcome held in `locationState`. -/
inductive LocationState where
  | checking
  | allowed
  | denied
  | err
deriving DecidableEq, Repr

/-- `lastAction` (`src/components/EmployeeDashboard.tsx`, lines 110-112):
the kind of the last of today's events in ascending timestamp order, or
`none` when there is none. -/
def lastActionOf (d : Int) (l : List TimeEntry) : Option TimeEntryType :=
  ((entriesOfDay d l).getLast?).map (fun e => e.type)

/-- The `actionButtons` list (lines 124-129): each of the four clock
buttons paired with its `enabled` flag, as a function of `lastAction`. -/
def actionButtons (la : Option TimeEntryType) : List (TimeEntryType × Bool) :=
  [ (.entrada, decide (la = none) || decide (la = some .saida)),
    (.inicioIntervalo, decide (la = some .entrada)),
    (.fimIntervalo, decide (la = some .inicioIntervalo)),
    (.saida, decide (la = some .entrada) || decide (la = some .fimIntervalo)) ]

/-- The rendered buttons (lines 232-244): a button is clickable exactly when
it is not disabled, and `disabled = !btn.enabled || locationState !== 'allowed'`. -/
def renderedButtons (ls : LocationState) (la : Option TimeEntryType) :
    List (TimeEntryType × Bool) :=
  (actionButtons la).map (fun b => (b.1, !((!b.2) || decide (ls ≠ LocationState.allowed))))

/-- Modelled from the spec (claim wording): the sequencing state machine the
buttons are claimed to implement, as a predicate on the last action. -/
def machineAllows (la : Option TimeEntryType) : TimeEntryType → Prop
  | .entrada => la = none ∨ la = some .saida
  | .inicioIntervalo => la = some .entrada
  | .fimIntervalo => la = some .inicioIntervalo
  | .saida => la = some .entrada ∨ la = some .fimIntervalo
  | .ferias => False

instance (la : Option TimeEntryType) (t : TimeEntryType) :
    Decidable (machineAllows la t) := by
  cases t <;> simp only [machineAllows] <;> infer_instance

/-! ## Geofence checker (`calculateDistance` and the geolocation effect) -/

/-- The workplace configuration (`AppConfig` in `src/App.tsx`): coordinates
and allowed radius feed the geofence, `workdayHours` feeds the aggregator. -/
structure AppConfig where
  latitude : ℝ
  longitude : ℝ
  radius : ℝ
  workdayHours : ℚ

/-- Two-argument arctangent, as `Math.atan2(y, x)`: the angle of the point
`(x, y)`, in `(-π, π]`. -/
noncomputable def atan2 (y x : ℝ) : ℝ :=
  if 0 < x then Real.arctan (y / x)
  else if x < 0 ∧ 0 ≤ y then Real.arctan (y / x) + Real.pi
  else if x < 0 ∧ y < 0 then Real.arctan (y / x) - Real.pi
  else if x = 0 ∧ 0 < y then Real.pi / 2
  else if x = 0 ∧ y < 0 then -(Real.pi / 2)
  else 0

/-- The haversine great-circle distance of `calculateDistance`
(`src/components/EmployeeDashboard.tsx`, lines 38-51), with Earth radius
6,371,000 m. -/
noncomputable def calculateDistance (lat1 lon1 lat2 lon2 : ℝ) : ℝ :=
  let R : ℝ := 6371000
  let phi1 := lat1 * Real.pi / 180
  let phi2 := lat2 * Real.pi / 180
  let dphi := (lat2 - lat1) * Real.pi / 180
  let dlam := (lon2 - lon1) * Real.pi / 180
  let a := Real.sin (dphi / 2) * Real.sin (dphi / 2) +
      Real.cos phi1 * Real.cos phi2 * Real.sin (dlam / 2) * Real.sin (dlam / 2)
  let c := 2 * atan2 (Real.sqrt a) (Real.sqrt (1 - a))
  R * c

/-- Classification of a reported position by the geolocation effect
(`src/components/EmployeeDashboard.tsx`, lines 69-81):
`allowed` when `distance <= allowedRadius`, else `denied`. -/
noncomputable def classifyPosition (lat lon : ℝ) (cfg : AppConfig) : LocationState :=
  if calculateDistance lat lon cfg.latitude cfg.longitude ≤ cfg.radius then
    LocationState.allowed
  else
    LocationState.denied

/-! ## Backup import (`handleImportData` in `src/App.tsx`) -/

/-- A record of the parsed backup file, as the import sees it: an optional
`id` field, an optional `timestamp` field, and the remaining fields.
`none` models an absent (or falsy) field, matching the `if (id)` and
`entry.timestamp` truthiness checks; the empty string is also falsy. -/
structure ImportRec where
  idField : Option String
  timestampField : Option String
  rest : List (String × String)
deriving DecidableEq, Repr

/-- JS truthiness of an optional string field: absent, `""` → falsy. -/
def truthyStr : Option String → Bool
  | none => false
  | some s => s ≠ ""

/-- A top-level field of the parsed backup JSON: an array of records, a
non-array value (with its truthiness), or absent. -/
inductive JField where
  | arr (records : List ImportRec)
  | nonArray (truthy : Bool)
  | missing
deriving DecidableEq, Repr

/-- JS truthiness of a top-level field (`!data.users`): arrays are always
truthy, an absent field is falsy. -/
def jtruthy : JField → Bool
  | .arr _ => true
  | .nonArray b => b
  | .missing => false

/-- `Array.isArray`. -/
def jisArray : JField → Bool
  | .arr _ => true
  | _ => false

/-- The records of an array field (`[]` when not an array; never consulted
in that case). -/
def jrecords : JField → List ImportRec
  | .arr rs => rs
  | _ => []

/-- The parsed backup document: its `users` and `time_entries` fields. -/
structure BackupData where
  users : JField
  time_entries : JField
deriving DecidableEq, Repr

/-- A Firestore timestamp obtained from an ISO-8601 string
(`Timestamp.fromDate(new Date(s))`): instants are keyed by their source
string in this model. -/
structure FireTs where
  iso : String
deriving DecidableEq, Repr

/-- What `batch.set` stores for a user: the record minus its `id`
(`const { id, ...userData } = user`). -/
def userDataOf (r : ImportRec) : Option String × List (String × String) :=
  (r.timestampField, r.rest)

/-- What `batch.set` stores for a time entry: the record minus its `id`,
with the ISO string replaced by the converted timestamp
(`{ ...entryData, timestamp }`). -/
def entryDataOf (r : ImportRec) : FireTs × List (String × String) :=
  (⟨(r.timestampField).getD ""⟩, r.rest)

/-- The two stored collections (`users` and `time_entries`), as maps from
document id to stored record. -/
structure Store where
  users : List (String × (Option String × List (String × String)))
  time_entries : List (String × (FireTs × List (String × String)))
deriving DecidableEq, Repr

/-- Replace-or-append write at a document id: `batch.set(doc(db, coll, id), data)`. -/
def upsertA (m : List (String × α)) (k : String) (v : α) : List (String × α) :=
  match m with
  | [] => [(k, v)]
  | (k', v') :: rest => if k' = k then (k, v) :: rest else (k', v') :: upsertA rest k v

/-- The shape check of `handleImportData`: both top-level fields truthy and
array-valued (`!data.users || !data.time_entries || !Array.isArray(...)`). -/
def shapeOk (d : BackupData) : Bool :=
  jtruthy d.users && jtruthy d.time_entries && jisArray d.users && jisArray d.time_entries

/-- One user write of the import: records with a truthy `id` are upserted,
others are skipped. -/
def importUserStep (m : List (String × (Option String × List (String × String))))
    (r : ImportRec) : List (String × (Option String × List (String × String))) :=
  match r.idField with
  | some i => if i ≠ "" then upsertA m i (userDataOf r) else m
  | none => m

/-- One time-entry write of the import: records with a truthy `id` AND a
truthy `timestamp` are upserted, others are skipped
(`if (id && entry.timestamp)`). -/
def importEntryStep (m : List (String × (FireTs × List (String × String))))
    (r : ImportRec) : List (String × (FireTs × List (String × String))) :=
  match r.idField with
  | some i =>
      if i ≠ "" && truthyStr r.timestampField then upsertA m i (entryDataOf r) else m
  | none => m

/-- `handleImportData` (`src/App.tsx`, lines 355-395): validate the shape,
and on success replay every qualifying record as an upsert into the store
(the batch is committed atomically; a failed shape check returns before any
write). -/
def handleImportData (d : BackupData) (s : Store) : Bool × Store :=
  if !jtruthy d.users || !jtruthy d.time_entries
      || !jisArray d.users || !jisArray d.time_entries then
    (false, s)
  else
    let users' := (jrecords d.users).foldl importUserStep s.users
    let entries' := (jrecords d.time_entries).foldl importEntryStep s.time_entries
    (true, { users := users', time_entries := entries' })

/-! ## Spec-side predicates used to state the claims -/

/-- Break length read off the record's two break slots
(`breakEnd − breakStart` iff both present, else `0`). -/
def slotBreak (r : DayRec) : Int :=
  match r.inicioIntervalo, r.fimIntervalo with
  | some bi, some bf => bf - bi
  | _, _ => 0

/-- The worked-hours/balance invariant of the specification (§3):
`workedHours = max(0, (clockOut − clockIn) − break) / msPerHour` and
`balanceHours = workedHours − workday` when both bounds are present, both
`0` otherwise. -/
def hoursInvariant (workday : ℚ) (r : DayRec) : Prop :=
  match r.entrada, r.saida with
  | some tIn, some tOut =>
      r.workedHours = ((max 0 ((tOut - tIn) - slotBreak r) : Int) : ℚ) / (msPerHour : ℚ)
        ∧ r.balance = r.workedHours - workday
  | _, _ => r.workedHours = 0 ∧ r.balance = 0

/-- A canonical slot holds the timestamp of an earliest event of the given
kind among `l`, or is empty when the kind does not occur. -/
def isEarliestSlot (l : List TimeEntry) (t : TimeEntryType) (slot : Option Int) : Prop :=
  match slot with
  | some ts =>
      (∃ e ∈ l, e.type = t ∧ e.timestamp = ts) ∧
      ∀ e ∈ l, e.type = t → ts ≤ e.timestamp
  | none => ∀ e ∈ l, e.type ≠ t

/-- The slot specification of claim C2 for one produced record, relative to
the input event list `l`: `sourceEvents` is the day's group sorted by
timestamp ascending, and each canonical slot holds the earliest event of its
kind in the group. -/
def recSlotsSpec (l : List TimeEntry) (r : DayRec) : Prop :=
  r.originalEntries.Pairwise (fun a b => a.timestamp ≤ b.timestamp) ∧
  List.Perm r.originalEntries (l.filter (fun e => dayKey e.timestamp = r.date)) ∧
  isEarliestSlot r.originalEntries .entrada r.entrada ∧
  isEarliestSlot r.originalEntries .inicioIntervalo r.inicioIntervalo ∧
  isEarliestSlot r.originalEntries .fimIntervalo r.fimIntervalo ∧
  isEarliestSlot r.originalEntries .saida r.saida

/-- The write a user record induces during import: its (truthy) id and the
stored data, or nothing when the record is skipped. -/
def userWriteOf (r : ImportRec) :
    Option (String × (Option String × List (String × String))) :=
  match r.idField with
  | some i => if i ≠ "" then some (i, userDataOf r) else none
  | none => none

/-- The write a time-entry record induces during import: its (truthy) id
and the stored data when the timestamp is also truthy, nothing otherwise. -/
def entryWriteOf (r : ImportRec) :
    Option (String × (FireTs × List (String × String))) :=
  match r.idField with
  | some i =>
      if i ≠ "" && truthyStr r.timestampField then some (i, entryDataOf r) else none
  | none => none

/-- Appending further events to an optional existing group: used to state
the characterisation of `groupByDay` (a missing group together with no new
events stays missing; otherwise the new events are appended). -/
def optAppend (g : Option (List TimeEntry)) (f : List TimeEntry) :
    Option (List TimeEntry) :=
  match g, f with
  | none, [] => none
  | none, f => some f
  | some g, f => some (g ++ f)

/-- Generic conditional-write step of the import: apply a record's induced
write (if any) as an upsert. -/
def writeStep {α ρ : Type _} (wr : ρ → Option (String × α))
    (m : List (String × α)) (r : ρ) : List (String × α) :=
  match wr r with
  | some p => upsertA m p.1 p.2
  | none => m

/-- The value a sequence of keyed writes leaves at `k`: the value of the
last write keyed `k`, or the old value when no write targets `k`. -/
def lastWriteLookup {α : Type _} (ws : List (String × α)) (k : String)
    (old : Option α) : Option α :=
  match ws.reverse.find? (fun p => p.1 = k) with
  | some p => some p.2
  | none => old

/-! ## Concrete instances used to exercise the theorems -/

/-- A one-day event list: clock-in at instant 0, clock-out one hour later. -/
def exC1 : List TimeEntry :=
  [⟨"a", "u", 0, .entrada, ""⟩, ⟨"b", "u", 3600000, .saida, ""⟩]

/-- Three one-user daily records with balances +1.0, −0.5, +2.0 on
consecutive days. -/
def exC3 : List ProcEntry :=
  [⟨"u", 0, 1⟩, ⟨"u", 1, -0.5⟩, ⟨"u", 2, 2⟩]

/-- Two events with the same timestamp and different notes, listed in one
order… -/
def exC4a : List TimeEntry :=
  [⟨"a", "u", 0, .entrada, "a"⟩, ⟨"b", "u", 0, .entrada, "b"⟩]

/-- …and the same two events listed in the other order. -/
def exC4b : List TimeEntry :=
  [⟨"b", "u", 0, .entrada, "b"⟩, ⟨"a", "u", 0, .entrada, "a"⟩]

/-- Two events with distinct timestamps, listed in one order… -/
def exC4c : List TimeEntry :=
  [⟨"a", "u", 0, .entrada, ""⟩, ⟨"b", "u", 3600000, .saida, ""⟩]

/-- …and the same two events listed in the other order. -/
def exC4d : List TimeEntry :=
  [⟨"b", "u", 3600000, .saida, ""⟩, ⟨"a", "u", 0, .entrada, ""⟩]

/-- A day whose earliest clock-out precedes its earliest clock-in. -/
def exC7 : List TimeEntry :=
  [⟨"a", "u", 0, .saida, ""⟩, ⟨"b", "u", 3600000, .entrada, ""⟩]

/-- The record the aggregator derives from `exC7`. -/
def c7rec : DayRec := mkDayRec 8 exC7

/-- An empty store. -/
def exStore : Store := ⟨[], []⟩

/-- A backup document with no `users` field. -/
def exC8bad : BackupData := ⟨.missing, .arr []⟩

/-- A backup document of valid shape carrying one user record (with an id)
and one time-entry record that has an id but no timestamp. -/
def exC8good : BackupData :=
  ⟨.arr [⟨some "u1", none, [("name", "Alice")]⟩], .arr [⟨some "e1", none, []⟩]⟩

/-! ## Helper lemmas: the stable sort -/

theorem insertK_perm (key : α → Int) (e : α) (l : List α) :
    List.Perm (insertK key e l) (e :: l) := by
  induction l with
  | nil => simp [insertK]
  | cons f rest ih =>
      simp only [insertK]
      by_cases h : key f ≤ key e
      · rw [if_pos h]
        exact (ih.cons f).trans (List.Perm.swap e f rest)
      · rw [if_neg h]

theorem sortKAux_perm (key : α → Int) (l acc : List α) :
    List.Perm (sortKAux key acc l) (l ++ acc) := by
  induction l generalizing acc with
  | nil => simp [sortKAux]
  | cons e l ih =>
      simp only [sortKAux]
      refine (ih (insertK key e acc)).trans ?_
      refine (List.Perm.append_left l (insertK_perm key e acc)).trans ?_
      exact List.perm_middle

theorem sortK_perm (key : α → Int) (l : List α) : List.Perm (sortK key l) l := by
  simpa [sortK] using sortKAux_perm key l []

theorem insertK_pairwise (key : α → Int) (e : α) {l : List α}
    (h : l.Pairwise (fun a b => key a ≤ key b)) :
    (insertK key e l).Pairwise (fun a b => key a ≤ key b) := by
  induction l with
  | nil => simp [insertK]
  | cons f rest ih =>
      rcases List.pairwise_cons.mp h with ⟨hf, hrest⟩
      simp only [insertK]
      by_cases hle : key f ≤ key e
      · rw [if_pos hle]
        refine List.pairwise_cons.mpr ⟨?_, ih hrest⟩
        intro x hx
        rcases List.mem_cons.mp ((insertK_perm key e rest).mem_iff.mp hx) with rfl | hx'
        · exact hle
        · exact hf x hx'
      · rw [if_neg hle]
        have hel : key e ≤ key f := le_of_not_le hle
        refine List.pairwise_cons.mpr ⟨?_, h⟩
        intro x hx
        rcases List.mem_cons.mp hx with rfl | hx'
        · exact hel
        · exact hel.trans (hf x hx')

theorem sortKAux_pairwise (key : α → Int) (l : List α) :
    ∀ {acc : List α}, acc.Pairwise (fun a b => key a ≤ key b) →
      (sortKAux key acc l).Pairwise (fun a b => key a ≤ key b) := by
  induction l with
  | nil => intro acc h; exact h
  | cons e l ih =>
      intro acc h
      exact ih (insertK_pairwise key e h)

theorem sortK_pairwise (key : α → Int) (l : List α) :
    (sortK key l).Pairwise (fun a b => key a ≤ key b) :=
  sortKAux_pairwise key l List.Pairwise.nil

theorem eq_of_perm_of_sorted_of_nodup_keys (key : α → Int) :
    ∀ {l₁ l₂ : List α}, List.Perm l₁ l₂ →
      l₁.Pairwise (fun a b => key a ≤ key b) →
      l₂.Pairwise (fun a b => key a ≤ key b) →
      (l₂.map key).Nodup → l₁ = l₂ := by
  intro l₁
  induction l₁ with
  | nil =>
      intro l₂ hp _ _ _
      exact (List.Perm.eq_nil hp.symm).symm
  | cons a t ih =>
      intro l₂ hp hs₁ hs₂ hnd
      have ha : a ∈ l₂ := hp.mem_iff.mp (List.mem_cons_self a t)
      obtain ⟨p, q, rfl⟩ := List.append_of_mem ha
      have hpq : List.Perm t (p ++ q) :=
        (List.perm_cons a).mp (hp.trans List.perm_middle)
      cases p with
      | nil =>
          rw [List.nil_append] at hpq
          rw [List.nil_append] at hs₂ hnd ⊢
          have hnd2 : (List.map key q).Nodup := by
            rw [List.map_cons, List.nodup_cons] at hnd
            exact hnd.2
          have ht : t = q :=
            ih hpq (List.Pairwise.of_cons hs₁) (List.Pairwise.of_cons hs₂) hnd2
          rw [ht]
      | cons b p' =>
          exfalso
          have hs₂' : (b :: (p' ++ a :: q)).Pairwise (fun x y => key x ≤ key y) := by
            rw [List.cons_append] at hs₂
            exact hs₂
          have hba : key b ≤ key a := (List.pairwise_cons.mp hs₂').1 a (by simp)
          have hbt : b ∈ t := hpq.symm.mem_iff.mp (by simp)
          have hab : key a ≤ key b := (List.pairwise_cons.mp hs₁).1 b hbt
          have hkeq : key b = key a := le_antisymm hba hab
          have hnd2 : (key b :: List.map key (p' ++ a :: q)).Nodup := by
            rw [List.cons_append, List.map_cons] at hnd
            exact hnd
          have hnmem : key b ∉ List.map key (p' ++ a :: q) :=
            (List.nodup_cons.mp hnd2).1
          apply hnmem
          rw [hkeq]
          simp

/-! ## Helper lemmas: `find?` on a sorted list, association lists -/

theorem find?_min_of_pairwise (key : α → Int) (p : α → Bool) :
    ∀ {l : List α}, l.Pairwise (fun a b => key a ≤ key b) →
      ∀ {e : α}, l.find? p = some e → ∀ x ∈ l, p x = true → key e ≤ key x := by
  intro l
  induction l with
  | nil => intro _ e he; simp [List.find?] at he
  | cons f rest ih =>
      intro hs e he x hx hpx
      rcases List.pairwise_cons.mp hs with ⟨hf, hrest⟩
      by_cases hpf : p f = true
      · rw [List.find?_cons_of_pos _ hpf] at he
        cases he
        rcases List.mem_cons.mp hx with rfl | hx'
        · exact le_refl _
        · exact hf x hx'
      · rw [List.find?_cons_of_neg _ hpf] at he
        rcases List.mem_cons.mp hx with rfl | hx'
        · exact absurd hpx hpf
        · exact ih hrest he x hx' hpx

theorem lookupA_setAssoc (m : List (String × α)) (k : String) (v : α) (k' : String) :
    lookupA (setAssoc m k v) k' = if k' = k then some v else lookupA m k' := by
  induction m with
  | nil => simp [setAssoc, lookupA]
  | cons kv rest ih =>
      obtain ⟨k₀, v₀⟩ := kv
      simp only [setAssoc]
      by_cases h₀ : k₀ = k
      · subst h₀
        by_cases h' : k' = k₀ <;> simp [lookupA, h']
      · rw [if_neg h₀]
        by_cases h' : k' = k₀
        · subst h'
          have hne : ¬(k' = k) := fun h => h₀ (h ▸ rfl)
          simp [lookupA, hne]
        · simp [lookupA, h', ih]

theorem lookupA_upsertA (m : List (String × α)) (k : String) (v : α) (k' : String) :
    lookupA (upsertA m k v) k' = if k' = k then some v else lookupA m k' := by
  induction m with
  | nil => simp [upsertA, lookupA]
  | cons kv rest ih =>
      obtain ⟨k₀, v₀⟩ := kv
      simp only [upsertA]
      by_cases h₀ : k₀ = k
      · subst h₀
        by_cases h' : k' = k₀ <;> simp [lookupA, h']
      · rw [if_neg h₀]
        by_cases h' : k' = k₀
        · subst h'
          have hne : ¬(k' = k) := fun h => h₀ (h ▸ rfl)
          simp [lookupA, hne]
        · simp [lookupA, h', ih]

theorem keys_setAssoc (m : List (String × α)) (k : String) (v : α) :
    (setAssoc m k v).map Prod.fst =
      if k ∈ m.map Prod.fst then m.map Prod.fst else m.map Prod.fst ++ [k] := by
  induction m with
  | nil => simp [setAssoc]
  | cons kv rest ih =>
      obtain ⟨k₀, v₀⟩ := kv
      simp only [setAssoc]
      by_cases h₀ : k₀ = k
      · subst h₀
        simp
      · rw [if_neg h₀]
        have hne : ¬(k = k₀) := fun h => h₀ (h ▸ rfl)
        by_cases hmem : k ∈ rest.map Prod.fst
        · simp [ih, hmem, hne]
        · simp [ih, hmem, hne]

theorem mem_keys_iff_lookupA [DecidableEq κ] (m : List (κ × α)) (k : κ) :
    k ∈ m.map Prod.fst ↔ (lookupA m k).isSome := by
  induction m with
  | nil => simp [lookupA]
  | cons kv rest ih =>
      obtain ⟨k₀, v₀⟩ := kv
      by_cases h : k = k₀
      · subst h
        simp [lookupA]
      · simp [lookupA, h, ih]

theorem mem_pair_iff_lookupA [DecidableEq κ] :
    ∀ {m : List (κ × α)}, (m.map Prod.fst).Nodup →
      ∀ {k : κ} {v : α}, ((k, v) ∈ m ↔ lookupA m k = some v) := by
  intro m
  induction m with
  | nil => intro _ k v; simp [lookupA]
  | cons kv rest ih =>
      intro hnd k v
      obtain ⟨k₀, v₀⟩ := kv
      rw [List.map_cons, List.nodup_cons] at hnd
      by_cases h : k = k₀
      · subst h
        simp only [lookupA, if_pos rfl, List.mem_cons]
        constructor
        · rintro (h | h)
          · cases h; rfl
          · exfalso
            exact hnd.1 (List.mem_map.mpr ⟨(k, v), h, rfl⟩)
        · rintro h
          cases h
          exact Or.inl rfl
      · simp only [lookupA, if_neg h, List.mem_cons]
        constructor
        · rintro (hh | hh)
          · cases hh; exact absurd rfl h
          · exact (ih hnd.2).mp hh
        · intro hh
          exact Or.inr ((ih hnd.2).mpr hh)

theorem assoc_eq_map_keys [DecidableEq κ] :
    ∀ (m : List (κ × α)) (f : κ → α), (∀ k v, (k, v) ∈ m → v = f k) →
      m = (m.map Prod.fst).map (fun k => (k, f k)) := by
  intro m
  induction m with
  | nil => intro f _; simp
  | cons kv rest ih =>
      intro f hf
      obtain ⟨k₀, v₀⟩ := kv
      have h₀ : v₀ = f k₀ := hf k₀ v₀ (List.mem_cons_self _ _)
      have hrest : rest = (rest.map Prod.fst).map (fun k => (k, f k)) :=
        ih f (fun k v hkv => hf k v (List.mem_cons_of_mem _ hkv))
      simp only [List.map_cons]
      rw [← h₀, ← hrest]

/-! ## Helper lemmas: grouping by day -/

theorem lookupA_addToGroups (ke : Int) (e : TimeEntry) :
    ∀ (gs : List (Int × List TimeEntry)) (k : Int),
      lookupA (addToGroups ke e gs) k =
        if k = ke then some ((lookupA gs k).getD [] ++ [e]) else lookupA gs k := by
  intro gs
  induction gs with
  | nil =>
      intro k
      by_cases h : k = ke
      · subst h
        simp [addToGroups, lookupA]
      · simp [addToGroups, lookupA, h]
  | cons kv rest ih =>
      intro k
      obtain ⟨k₀, g₀⟩ := kv
      simp only [addToGroups]
      by_cases h₀ : k₀ = ke
      · subst h₀
        by_cases h : k = k₀
        · subst h
          simp [lookupA]
        · simp [lookupA, h]
      · rw [if_neg h₀]
        by_cases h : k = k₀
        · subst h
          have hne : ¬(k = ke) := fun hh => h₀ (hh ▸ rfl)
          simp [lookupA, hne]
        · simp only [lookupA, if_neg h]
          exact ih k

theorem lookupA_groupsAux :
    ∀ (l : List TimeEntry) (gs : List (Int × List TimeEntry)) (k : Int),
      lookupA (groupsAux gs l) k =
        optAppend (lookupA gs k) (l.filter (fun e => dayKey e.timestamp = k)) := by
  intro l
  induction l with
  | nil =>
      intro gs k
      simp only [groupsAux, List.filter_nil]
      cases h : lookupA gs k <;> simp [optAppend]
  | cons e l ih =>
      intro gs k
      simp only [groupsAux]
      rw [ih]
      rw [lookupA_addToGroups]
      by_cases h : k = dayKey e.timestamp
      · rw [if_pos h]
        have hfe : (List.filter (fun x => decide (dayKey x.timestamp = k)) (e :: l))
            = e :: List.filter (fun x => decide (dayKey x.timestamp = k)) l := by
          rw [List.filter_cons_of_pos]
          simp [h.symm]
        rw [hfe]
        cases hg : lookupA gs k <;> simp [optAppend]
      · rw [if_neg h]
        have hfe : (List.filter (fun x => decide (dayKey x.timestamp = k)) (e :: l))
            = List.filter (fun x => decide (dayKey x.timestamp = k)) l := by
          rw [List.filter_cons_of_neg]
          simp
          exact fun hh => h hh.symm
        rw [hfe]

theorem keys_addToGroups (ke : Int) (e : TimeEntry) :
    ∀ (gs : List (Int × List TimeEntry)),
      (addToGroups ke e gs).map Prod.fst =
        if ke ∈ gs.map Prod.fst then gs.map Prod.fst else gs.map Prod.fst ++ [ke] := by
  intro gs
  induction gs with
  | nil => simp [addToGroups]
  | cons kv rest ih =>
      obtain ⟨k₀, g₀⟩ := kv
      simp only [addToGroups]
      by_cases h₀ : k₀ = ke
      · subst h₀
        simp
      · rw [if_neg h₀]
        have hne : ¬(ke = k₀) := fun h => h₀ (h ▸ rfl)
        by_cases hmem : ke ∈ rest.map Prod.fst
        · simp [ih, hmem, hne]
        · simp [ih, hmem, hne]

theorem keys_nodup_groupsAux :
    ∀ (l : List TimeEntry) (gs : List (Int × List TimeEntry)),
      ((gs.map Prod.fst).Nodup) → ((groupsAux gs l).map Prod.fst).Nodup := by
  intro l
  induction l with
  | nil => intro gs h; exact h
  | cons e l ih =>
      intro gs h
      apply ih
      rw [keys_addToGroups]
      by_cases hmem : dayKey e.timestamp ∈ gs.map Prod.fst
      · rwa [if_pos hmem]
      · rw [if_neg hmem]
        simp [List.nodup_append, h, hmem]

theorem keys_nodup_groupByDay (l : List TimeEntry) :
    ((groupByDay l).map Prod.fst).Nodup :=
  keys_nodup_groupsAux l [] (by simp)

theorem lookupA_groupByDay (l : List TimeEntry) (k : Int) :
    lookupA (groupByDay l) k =
      optAppend none (l.filter (fun e => dayKey e.timestamp = k)) := by
  rw [groupByDay, lookupA_groupsAux]
  rfl

theorem group_content {l : List TimeEntry} {k : Int} {g : List TimeEntry}
    (h : (k, g) ∈ groupByDay l) :
    g = l.filter (fun e => dayKey e.timestamp = k) ∧ g ≠ [] := by
  have hl : lookupA (groupByDay l) k = some g :=
    (mem_pair_iff_lookupA (keys_nodup_groupByDay l)).mp h
  rw [lookupA_groupByDay] at hl
  cases hf : l.filter (fun e => dayKey e.timestamp = k) with
  | nil =>
      rw [hf] at hl
      simp [optAppend] at hl
  | cons x xs =>
      rw [hf] at hl
      simp only [optAppend] at hl
      cases hl
      exact ⟨rfl, by simp⟩

theorem mem_keys_groupByDay (l : List TimeEntry) (k : Int) :
    k ∈ (groupByDay l).map Prod.fst ↔
      l.filter (fun e => dayKey e.timestamp = k) ≠ [] := by
  rw [mem_keys_iff_lookupA, lookupA_groupByDay]
  cases hf : l.filter (fun e => dayKey e.timestamp = k) <;> simp [optAppend]

/-! ## Helper lemmas: the produced records -/

theorem mem_processedDailyEntries {w : ℚ} {l : List TimeEntry} {r : DayRec} :
    r ∈ processedDailyEntries w l ↔ ∃ kg ∈ groupByDay l, r = mkDayRec w kg.2 := by
  unfold processedDailyEntries
  rw [(sortK_perm _ _).mem_iff, List.mem_map]
  constructor
  · rintro ⟨kg, hkg, rfl⟩
    exact ⟨kg, hkg, rfl⟩
  · rintro ⟨kg, hkg, rfl⟩
    exact ⟨kg, hkg, rfl⟩

theorem hoursInvariant_mkFromSorted (w : ℚ) (s : List TimeEntry) :
    hoursInvariant w (mkFromSorted w s) := by
  have hmax : ∀ m : Int, (if 0 < m then (m : ℚ) / (msPerHour : ℚ) else 0)
      = ((max 0 m : Int) : ℚ) / (msPerHour : ℚ) := by
    intro m
    by_cases hm : 0 < m
    · rw [if_pos hm, max_eq_right hm.le]
    · rw [if_neg hm, max_eq_left (not_lt.mp hm)]
      simp
  unfold hoursInvariant
  cases hE : findType .entrada s <;> cases hS : findType .saida s <;>
    simp only [mkFromSorted, hE, hS, Option.map_none', Option.map_some']
  · simp [workedHoursOf, workedMillisOf, balanceOf, hE, hS]
  · simp [workedHoursOf, workedMillisOf, balanceOf, hE, hS]
  · simp [workedHoursOf, workedMillisOf, balanceOf, hE, hS]
  · rename_i eIn eOut
    constructor
    · cases hI : findType .inicioIntervalo s <;> cases hF : findType .fimIntervalo s <;>
        simp only [workedHoursOf, workedMillisOf, breakMillisOf, slotBreak, hI, hF,
          Option.map_none', Option.map_some'] <;>
        exact hmax _
    · simp [balanceOf, hE, hS]

theorem date_mkDayRec (w : ℚ) {g : List TimeEntry} {k : Int} (hne : g ≠ [])
    (hall : ∀ e ∈ g, dayKey e.timestamp = k) : (mkDayRec w g).date = k := by
  have hperm : List.Perm (sortByTime g) g := sortK_perm _ g
  cases hs : sortByTime g with
  | nil =>
      exfalso
      apply hne
      have h0 : List.Perm ([] : List TimeEntry) g := hs ▸ hperm
      exact (List.Perm.eq_nil h0.symm)
  | cons e s' =>
      have he : e ∈ g := by
        apply hperm.mem_iff.mp
        rw [hs]
        exact List.mem_cons_self e s'
      show (mkFromSorted w (sortByTime g)).date = k
      rw [hs]
      simpa [mkFromSorted, dateOfSorted] using hall e he

theorem isEarliestSlot_findType (t : TimeEntryType) {s : List TimeEntry}
    (hs : s.Pairwise (fun a b => a.timestamp ≤ b.timestamp)) :
    isEarliestSlot s t ((findType t s).map (fun e => e.timestamp)) := by
  cases hf : findType t s with
  | none =>
      simp only [Option.map_none', isEarliestSlot]
      intro e he
      have h := List.find?_eq_none.mp hf e he
      simpa using h
  | some f =>
      have hpf : f.type = t := by
        have h := List.find?_some hf
        simpa using h
      have hmem : f ∈ s := List.mem_of_find?_eq_some hf
      simp only [Option.map_some', isEarliestSlot]
      refine ⟨⟨f, hmem, hpf, rfl⟩, ?_⟩
      intro e he het
      exact find?_min_of_pairwise (fun e => e.timestamp) _ hs hf e he (by simp [het])

/-! ## Claim theorems -/

/-- C1: for every day group produced by the attendance aggregator,
`workedHours` equals `max 0 ((clockOut − clockIn) − (breakEnd − breakStart
when both break bounds are present))` expressed in hours when both clock-in
and clock-out exist and `0` otherwise, and `balance` equals
`workedHours − workdayHours` when both exist and `0` otherwise. -/
theorem c1_aggregator_hours_invariant (w : ℚ) (l : List TimeEntry) (r : DayRec)
    (hr : r ∈ processedDailyEntries w l) : hoursInvariant w r := by
  obtain ⟨kg, _, rfl⟩ := mem_processedDailyEntries.mp hr
  exact hoursInvariant_mkFromSorted w (sortByTime kg.2)

/-- C1 witness: the invariant holds for the record of a concrete one-hour
day. -/
theorem c1_witness : hoursInvariant 8 (mkDayRec 8 exC1) :=
  c1_aggregator_hours_invariant 8 exC1 (mkDayRec 8 exC1)
    (by rw [show processedDailyEntries 8 exC1 = [mkDayRec 8 exC1] from rfl]
        exact List.mem_cons_self _ _)

/-- C2: every record produced by the aggregator carries the day group
sorted ascending by timestamp as its `sourceEvents`, and each canonical
slot holds the earliest event of its kind in the group (or is empty when
the kind is absent). -/
theorem c2_aggregator_slot_selection (w : ℚ) (l : List TimeEntry) (r : DayRec)
    (hr : r ∈ processedDailyEntries w l) : recSlotsSpec l r := by
  obtain ⟨⟨k, g⟩, hkg, rfl⟩ := mem_processedDailyEntries.mp hr
  obtain ⟨hg, hne⟩ := group_content hkg
  have hall : ∀ e ∈ g, dayKey e.timestamp = k := by
    intro e he
    rw [hg] at he
    simpa using (List.mem_filter.mp he).2
  have hdate : (mkDayRec w g).date = k := date_mkDayRec w hne hall
  have hsorted : (sortByTime g).Pairwise (fun a b => a.timestamp ≤ b.timestamp) :=
    sortK_pairwise _ g
  refine ⟨hsorted, ?_, ?_, ?_, ?_, ?_⟩
  · rw [show (mkDayRec w g).originalEntries = sortByTime g from rfl, hdate, ← hg]
    exact sortK_perm _ g
  · exact isEarliestSlot_findType .entrada hsorted
  · exact isEarliestSlot_findType .inicioIntervalo hsorted
  · exact isEarliestSlot_findType .fimIntervalo hsorted
  · exact isEarliestSlot_findType .saida hsorted

/-- C2 witness: the slot specification holds for the record of a concrete
one-hour day. -/
theorem c2_witness : recSlotsSpec exC1 (mkDayRec 8 exC1) :=
  c2_aggregator_slot_selection 8 exC1 (mkDayRec 8 exC1)
    (by rw [show processedDailyEntries 8 exC1 = [mkDayRec 8 exC1] from rfl]
        exact List.mem_cons_self _ _)

/-- C7 (amended): for every produced record having both a clock-in slot and
a clock-out slot, no break events in its day group, and whose earliest
clock-in is not later than its earliest clock-out, `workedHours` equals
exactly `(clockOut − clockIn)` in hours and the status is `"Completo"`.
The source clamps a negative difference to zero, so the claim as stated
fails when the day's earliest clock-out precedes its earliest clock-in
(see the counterexample). -/
theorem c7_complete_day_hours (w : ℚ) (l : List TimeEntry) (r : DayRec)
    (tIn tOut : Int) (hr : r ∈ processedDailyEntries w l)
    (hIn : r.entrada = some tIn) (hOut : r.saida = some tOut)
    (hnb : ∀ e ∈ r.originalEntries,
      e.type ≠ TimeEntryType.inicioIntervalo ∧ e.type ≠ TimeEntryType.fimIntervalo)
    (hle : tIn ≤ tOut) :
    r.workedHours = ((tOut - tIn : Int) : ℚ) / (msPerHour : ℚ) ∧
      r.status = "Completo" := by
  obtain ⟨kg, _, rfl⟩ := mem_processedDailyEntries.mp hr
  obtain ⟨eIn, hfIn, htIn⟩ := Option.map_eq_some'.mp hIn
  obtain ⟨eOut, hfOut, htOut⟩ := Option.map_eq_some'.mp hOut
  have hbI : findType .inicioIntervalo (sortByTime kg.2) = none := by
    apply List.find?_eq_none.mpr
    intro e he
    simpa using (hnb e he).1
  have hbF : findType .fimIntervalo (sortByTime kg.2) = none := by
    apply List.find?_eq_none.mpr
    intro e he
    simpa using (hnb e he).2
  constructor
  · show workedHoursOf (findType .entrada (sortByTime kg.2))
      (findType .saida (sortByTime kg.2)) (findType .inicioIntervalo (sortByTime kg.2))
      (findType .fimIntervalo (sortByTime kg.2)) = _
    rw [hfIn, hfOut, hbI, hbF]
    unfold workedHoursOf workedMillisOf breakMillisOf
    simp only [htIn, htOut, sub_zero]
    by_cases h0 : 0 < tOut - tIn
    · rw [if_pos h0]
    · have hz : tOut - tIn = 0 := le_antisymm (not_lt.mp h0) (sub_nonneg.mpr hle)
      rw [if_neg h0, hz]
      norm_num
  · show statusOf (findType .entrada (sortByTime kg.2))
      (findType .saida (sortByTime kg.2)) = _
    rw [hfIn, hfOut]
    rfl

/-- C7 witness: on a concrete break-free day (clock-in at 0, clock-out one
hour later) the record's worked hours are exactly one hour and the status
is complete. -/
theorem c7_witness :
    (mkDayRec 8 exC1).workedHours = ((3600000 - 0 : Int) : ℚ) / (msPerHour : ℚ) ∧
      (mkDayRec 8 exC1).status = "Completo" :=
  c7_complete_day_hours 8 exC1 (mkDayRec 8 exC1) 0 3600000
    (by rw [show processedDailyEntries 8 exC1 = [mkDayRec 8 exC1] from rfl]
        exact List.mem_cons_self _ _)
    rfl rfl (by decide) (by decide)

/-- C7 counterexample: a day whose earliest clock-out (instant 0) precedes
its earliest clock-in (instant 3600000) has both canonical bounds and no
break events, yet its worked hours are `0`, not the negative
`(clockOut − clockIn)` the claim as stated would require. -/
theorem c7_counterexample :
    processedDailyEntries 8 exC7 = [c7rec] ∧
    c7rec.entrada = some 3600000 ∧ c7rec.saida = some 0 ∧
    (c7rec.originalEntries.all fun e =>
      decide (e.type ≠ TimeEntryType.inicioIntervalo) &&
      decide (e.type ≠ TimeEntryType.fimIntervalo)) = true ∧
    c7rec.status = "Completo" ∧
    c7rec.workedHours ≠ ((0 - 3600000 : Int) : ℚ) / (msPerHour : ℚ) := by
  refine ⟨rfl, rfl, rfl, rfl, rfl, ?_⟩
  show (0 : ℚ) ≠ _
  rw [msPerHour]
  norm_num

/-! ## Helper lemmas: the balance accumulator -/

theorem accumPass_length (m : List (String × ℚ)) (l : List ProcEntry) :
    (accumPass m l).length = l.length := by
  induction l generalizing m with
  | nil => simp [accumPass]
  | cons e l ih => simp [accumPass, ih]

theorem accumPass_get (l : List ProcEntry) :
    ∀ (m : List (String × ℚ)) (i : Nat) (h : i < l.length),
      (accumPass m l).get ⟨i, by rw [accumPass_length]; exact h⟩ =
        ⟨l.get ⟨i, h⟩,
          (lookupA m (l.get ⟨i, h⟩).userId).getD 0 +
          (((l.take (i+1)).filter
              (fun e => e.userId = (l.get ⟨i, h⟩).userId)).map
            (fun e => e.balance)).sum⟩ := by
  induction l with
  | nil => intro m i h; exact absurd h (by simp)
  | cons e l ih =>
      intro m i h
      cases i with
      | zero =>
          simp [accumPass, List.get_eq_getElem, List.take, List.filter_cons]
      | succ i =>
          have h' : i < l.length := Nat.lt_of_succ_lt_succ h
          have hrec := ih (setAssoc m e.userId ((lookupA m e.userId).getD 0 + e.balance)) i h'
          simp only [accumPass, List.get_eq_getElem, List.getElem_cons_succ] at hrec ⊢
          rw [hrec, lookupA_setAssoc]
          by_cases he : l[i].userId = e.userId
          · rw [if_pos he]
            simp only [List.take_succ_cons, List.filter_cons]
            rw [if_pos (by simpa using he.symm)]
            simp only [Option.getD_some, List.map_cons, List.sum_cons, he]
            rw [add_assoc]
          · rw [if_neg he]
            simp only [List.take_succ_cons, List.filter_cons]
            rw [if_neg (by simpa using fun hh => he (id (Eq.symm hh)))]

/-- C3: the balance accumulator (`entriesWithAccumulatedBalance` reverses
the accumulation pass run over the date-ascending entries with all running
totals starting at 0) assigns every record an accumulated balance equal to
the sum of its own day balance and the day balances of all earlier records
of the same user; in particular, on daily balances `[+1.0, −0.5, +2.0]` of
one user the accumulated balances are `[1.0, 0.5, 2.5]` in ascending date
order. -/
theorem c3_accumulated_balance :
    (∀ (l : List ProcEntry) (i : Nat) (h : i < l.length),
      ((accumPass [] l).get ⟨i, by rw [accumPass_length]; exact h⟩).entry
          = l.get ⟨i, h⟩ ∧
      ((accumPass [] l).get ⟨i, by rw [accumPass_length]; exact h⟩).accumulatedBalance =
        (((l.take (i+1)).filter (fun e => e.userId = (l.get ⟨i, h⟩).userId)).map
          (fun e => e.balance)).sum) ∧
    (∀ l : List ProcEntry, entriesWithAccumulatedBalance l =
      (accumPass [] (sortK (fun e => e.date) l)).reverse) ∧
    ((entriesWithAccumulatedBalance exC3).map
        (fun a => a.accumulatedBalance)).reverse = [1, 0.5, 2.5] := by
  refine ⟨?_, fun l => rfl, ?_⟩
  · intro l i h
    rw [accumPass_get]
    constructor
    · rfl
    · simp [lookupA]
  · norm_num [entriesWithAccumulatedBalance, accumPass, sortK, sortKAux, insertK,
      lookupA, setAssoc, exC3]

/-- C3 witness: the first record of the concrete three-day sequence gets
accumulated balance equal to its own balance. -/
theorem c3_witness :
    ((accumPass [] exC3).get
        ⟨0, by rw [accumPass_length]; exact (by decide : 0 < exC3.length)⟩).entry
      = exC3.get ⟨0, by decide⟩ ∧
    ((accumPass [] exC3).get
        ⟨0, by rw [accumPass_length]; exact (by decide : 0 < exC3.length)⟩).accumulatedBalance =
      (((exC3.take 1).filter
          (fun e => e.userId = (exC3.get ⟨0, by decide⟩).userId)).map
        (fun e => e.balance)).sum :=
  c3_accumulated_balance.1 exC3 0 (by decide)

/-- C9: a rendered clock-action button is clickable exactly when the
geofence state is `allowed` and the sequencing machine derived from the
user's last event of the current day permits it: clock-in when the last
event is absent or a clock-out, break-start when it is a clock-in,
break-end when it is a break-start, clock-out when it is a clock-in or a
break-end. -/
theorem c9_button_state_machine (d : Int) (l : List TimeEntry) (ls : LocationState)
    (t : TimeEntryType) (b : Bool)
    (hmem : (t, b) ∈ renderedButtons ls (lastActionOf d l)) :
    b = true ↔ (ls = LocationState.allowed ∧ machineAllows (lastActionOf d l) t) := by
  revert hmem
  generalize lastActionOf d l = la
  intro hmem
  simp only [renderedButtons, actionButtons, List.map_cons, List.map_nil,
    List.mem_cons, List.not_mem_nil, or_false, Prod.mk.injEq] at hmem
  rcases hmem with ⟨rfl, rfl⟩ | ⟨rfl, rfl⟩ | ⟨rfl, rfl⟩ | ⟨rfl, rfl⟩ <;>
    cases ls <;>
    rcases la with _ | k <;>
    simp [machineAllows]

/-- C9 witness: with no event registered today and the geofence allowed,
the clock-in button is clickable and the machine indeed permits clock-in. -/
theorem c9_witness :
    true = true ↔ (LocationState.allowed = LocationState.allowed ∧
      machineAllows (lastActionOf 0 []) TimeEntryType.entrada) :=
  c9_button_state_machine 0 [] LocationState.allowed TimeEntryType.entrada true
    (by decide)

/-- The haversine distance from a point to itself is zero. -/
theorem calculateDistance_self (lat lon : ℝ) :
    calculateDistance lat lon lat lon = 0 := by
  unfold calculateDistance atan2
  norm_num [Real.sqrt_zero, Real.sqrt_one, Real.arctan_zero]

/-- C5: the geofence check computes the haversine great-circle distance
(Earth radius 6,371,000 m) and classifies a position as allowed exactly
when that distance is at most the configured radius; a position exactly at
the configured coordinates has distance 0 and is allowed for any
non-negative radius. -/
theorem c5_geofence (lat lon : ℝ) (w : ℚ) (r : ℝ) (hr : 0 ≤ r) :
    calculateDistance lat lon lat lon = 0 ∧
    classifyPosition lat lon ⟨lat, lon, r, w⟩ = LocationState.allowed ∧
    ∀ plat plon : ℝ,
      (classifyPosition plat plon ⟨lat, lon, r, w⟩ = LocationState.allowed ↔
        calculateDistance plat plon lat lon ≤ r) := by
  refine ⟨calculateDistance_self lat lon, ?_, ?_⟩
  · unfold classifyPosition
    rw [if_pos]
    show calculateDistance lat lon lat lon ≤ r
    rw [calculateDistance_self lat lon]
    exact hr
  · intro plat plon
    unfold classifyPosition
    by_cases hd : calculateDistance plat plon lat lon ≤ r
    · rw [if_pos hd]
      simp [hd]
    · rw [if_neg hd]
      simp [hd]

/-- C5 witness: at the concrete workplace (10, 20) with radius 100 m, a
position exactly at the workplace has distance 0 and is allowed. -/
theorem c5_witness :
    calculateDistance 10 20 10 20 = 0 ∧
    classifyPosition 10 20 ⟨10, 20, 100, 8⟩ = LocationState.allowed :=
  ⟨(c5_geofence 10 20 8 100 (by norm_num)).1,
   (c5_geofence 10 20 8 100 (by norm_num)).2.1⟩

/-! ## Helper lemmas: the currently-working counter -/

theorem statusFold_lookup :
    ∀ (l : List TimeEntry) (m : List (String × TimeEntryType)) (u : String),
      lookupA (l.foldl statusStep m) u =
        match (l.filter (fun e => e.userId = u)).getLast? with
        | some e => some e.type
        | none => lookupA m u := by
  intro l
  induction l with
  | nil => intro m u; simp
  | cons e l ih =>
      intro m u
      rw [List.foldl_cons, ih]
      by_cases hu : e.userId = u
      · rw [List.filter_cons_of_pos (by simpa using hu)]
        cases hxs : (l.filter (fun e => e.userId = u)).getLast? with
        | some f =>
            have hcons : (e :: l.filter (fun e => e.userId = u)).getLast? = some f := by
              cases hfl : l.filter (fun e => e.userId = u) with
              | nil => rw [hfl] at hxs; simp at hxs
              | cons x xs =>
                  rw [hfl] at hxs
                  rw [List.getLast?_cons_cons, hxs]
            rw [hcons]
        | none =>
            have hfl : l.filter (fun e => e.userId = u) = [] := by
              cases hfl : l.filter (fun e => e.userId = u) with
              | nil => rfl
              | cons x xs => rw [hfl] at hxs; simp [List.getLast?] at hxs
            rw [hfl]
            rw [show ([e].getLast?) = some e from List.getLast?_singleton e]
            show lookupA (statusStep m e) u = some e.type
            unfold statusStep
            rw [lookupA_setAssoc, if_pos hu.symm]
      · rw [List.filter_cons_of_neg (by simpa using hu)]
        cases hxs : (l.filter (fun e => e.userId = u)).getLast? with
        | some f => rfl
        | none =>
            show lookupA (statusStep m e) u = lookupA m u
            unfold statusStep
            rw [lookupA_setAssoc, if_neg (fun h => hu h.symm)]

theorem statusFold_keys_nodup :
    ∀ (l : List TimeEntry) (m : List (String × TimeEntryType)),
      ((m.map Prod.fst).Nodup) → ((l.foldl statusStep m).map Prod.fst).Nodup := by
  intro l
  induction l with
  | nil => intro m h; exact h
  | cons e l ih =>
      intro m h
      rw [List.foldl_cons]
      apply ih
      unfold statusStep
      rw [keys_setAssoc]
      by_cases hmem : e.userId ∈ m.map Prod.fst
      · rwa [if_pos hmem]
      · rw [if_neg hmem]
        simp [List.nodup_append, h, hmem]

theorem statusFold_keys_mem :
    ∀ (l : List TimeEntry) (m : List (String × TimeEntryType)) (u : String),
      (u ∈ (l.foldl statusStep m).map Prod.fst ↔
        u ∈ m.map Prod.fst ∨ u ∈ l.map (fun e => e.userId)) := by
  intro l
  induction l with
  | nil => intro m u; simp
  | cons e l ih =>
      intro m u
      rw [List.foldl_cons, ih]
      unfold statusStep
      rw [keys_setAssoc]
      by_cases hmem : e.userId ∈ m.map Prod.fst
      · rw [if_pos hmem]
        simp only [List.map_cons, List.mem_cons]
        constructor
        · intro h
          tauto
        · intro h
          rcases h with h | h | h
          · exact Or.inl h
          · exact Or.inl (h ▸ hmem)
          · exact Or.inr h
      · rw [if_neg hmem]
        simp only [List.mem_append, List.map_cons, List.mem_cons, List.mem_singleton]
        tauto

theorem count_filter_keys (P : TimeEntryType → Bool) :
    ∀ (m : List (String × TimeEntryType)), ((m.map Prod.fst).Nodup) →
      (m.filter (fun kv => P kv.2)).length =
        ((m.map Prod.fst).filter (fun u =>
          match lookupA m u with
          | some t => P t
          | none => false)).length := by
  intro m
  induction m with
  | nil => intro _; simp
  | cons kv rest ih =>
      intro hnd
      obtain ⟨k, v⟩ := kv
      rw [List.map_cons, List.nodup_cons] at hnd
      have hlk : lookupA ((k, v) :: rest) k = some v := by
        simp [lookupA]
      have hcongr :
          (rest.map Prod.fst).filter (fun u =>
            match lookupA ((k, v) :: rest) u with
            | some t => P t
            | none => false) =
          (rest.map Prod.fst).filter (fun u =>
            match lookupA rest u with
            | some t => P t
            | none => false) := by
        apply List.filter_congr
        intro u hu
        have hne : ¬(u = k) := fun h => hnd.1 (h ▸ hu)
        simp [lookupA, hne]
      rw [List.filter_cons, List.map_cons, List.filter_cons, hlk]
      by_cases hv : P v = true
      · simp only [hv, if_pos]
        rw [List.length_cons, List.length_cons, ih hnd.2, hcongr]
      · simp only [hv]
        rw [if_neg (by simp [hv]), if_neg (by simp [hv]), ih hnd.2, hcongr]


theorem length_filter_eq_of_mem_iff {p q : String → Bool} :
    ∀ (xs ys : List String), xs.Nodup → ys.Nodup → (∀ u, u ∈ xs ↔ u ∈ ys) →
      (∀ u, p u = q u) → (xs.filter p).length = (ys.filter q).length := by
  intro xs ys hx hy hmem hpq
  have hperm : List.Perm xs ys := (List.perm_ext_iff_of_nodup hx hy).mpr hmem
  rw [List.filter_congr (fun u _ => hpq u)]
  exact (hperm.filter q).length_eq

/-- C6: the "currently working" summary counter equals the number of users
having at least one clock event on the given calendar day whose most recent
event of that day (last of the day's events sorted ascending by timestamp)
is not a clock-out; users with no event that day are not counted. -/
theorem c6_currently_working (d : Int) (l : List TimeEntry) :
    currentlyWorking d l = specCurrentlyWorking d l := by
  unfold currentlyWorking specCurrentlyWorking userStatusMap
  have hnd : (((entriesOfDay d l).foldl statusStep []).map Prod.fst).Nodup :=
    statusFold_keys_nodup (entriesOfDay d l) [] (by simp)
  rw [count_filter_keys (fun t => decide (t ≠ TimeEntryType.saida)) _ hnd]
  apply length_filter_eq_of_mem_iff _ _ hnd (List.nodup_dedup _)
  · intro u
    rw [List.mem_dedup]
    simpa using statusFold_keys_mem (entriesOfDay d l) [] u
  · intro u
    rw [statusFold_lookup]
    cases h : ((entriesOfDay d l).filter (fun e => e.userId = u)).getLast? <;>
      simp [lastEventOf, h, lookupA]

/-! ## Helper lemmas: the backup import -/

theorem find?_append_or (p : α → Bool) :
    ∀ (l₁ l₂ : List α), (l₁ ++ l₂).find? p =
      match l₁.find? p with
      | some a => some a
      | none => l₂.find? p := by
  intro l₁ l₂
  induction l₁ with
  | nil => simp
  | cons a l ih =>
      by_cases hp : p a = true
      · rw [List.cons_append, List.find?_cons_of_pos _ hp, List.find?_cons_of_pos _ hp]
      · rw [List.cons_append, List.find?_cons_of_neg _ (by simpa using hp),
          List.find?_cons_of_neg _ (by simpa using hp), ih]

theorem lookup_foldl_write {α ρ : Type _} (wr : ρ → Option (String × α)) :
    ∀ (rs : List ρ) (m : List (String × α)) (k : String),
      lookupA (rs.foldl (writeStep wr) m) k =
        lastWriteLookup (rs.filterMap wr) k (lookupA m k) := by
  intro rs
  induction rs with
  | nil => intro m k; simp [lastWriteLookup]
  | cons r rs ih =>
      intro m k
      rw [List.foldl_cons, ih]
      unfold lastWriteLookup
      rw [List.filterMap_cons]
      cases hw : wr r with
      | none =>
          rw [show writeStep wr m r = m by unfold writeStep; rw [hw]]
      | some q =>
          rw [show writeStep wr m r = upsertA m q.1 q.2 by unfold writeStep; rw [hw]]
          simp only [List.reverse_cons, find?_append_or]
          cases hf : ((rs.filterMap wr).reverse.find? (fun p => p.1 = k)) with
          | some p => rfl
          | none =>
              simp only []
              rw [lookupA_upsertA]
              by_cases hk : (q.1 = k)
              · rw [List.find?_cons_of_pos _ (by simpa using hk), if_pos hk.symm]
              · rw [List.find?_cons_of_neg _ (by simpa using hk),
                  if_neg (fun h => hk h.symm)]
                simp

theorem importUserStep_eq : importUserStep = writeStep userWriteOf := by
  funext m r
  unfold importUserStep writeStep userWriteOf
  cases r.idField with
  | none => rfl
  | some i =>
      by_cases hi : i ≠ "" <;> simp [hi]

theorem importEntryStep_eq : importEntryStep = writeStep entryWriteOf := by
  funext m r
  unfold importEntryStep writeStep entryWriteOf
  cases r.idField with
  | none => rfl
  | some i =>
      by_cases hi : i = "" <;> by_cases ht : truthyStr r.timestampField = true <;>
        simp [hi, ht]

/-- C8 (amended): when the parsed backup lacks an array-valued `users` or
`time_entries` field the import reports failure and leaves the store
untouched; when the shape check passes the import reports success, every
user record carrying a truthy `id` is upserted (last write wins), and every
time-entry record carrying a truthy `id` AND a truthy `timestamp` is
upserted, all other records being silently skipped.  The original claim
said every record with an `id` overwrites the store; for time entries the
code also requires a `timestamp` (see the counterexample and C10). -/
theorem c8_import_amended (d : BackupData) (s : Store) :
    (shapeOk d = false → handleImportData d s = (false, s)) ∧
    (shapeOk d = true →
      (handleImportData d s).1 = true ∧
      (∀ k, lookupA (handleImportData d s).2.users k =
        lastWriteLookup ((jrecords d.users).filterMap userWriteOf) k
          (lookupA s.users k)) ∧
      (∀ k, lookupA (handleImportData d s).2.time_entries k =
        lastWriteLookup ((jrecords d.time_entries).filterMap entryWriteOf) k
          (lookupA s.time_entries k))) := by
  constructor
  · intro hbad
    unfold handleImportData
    rw [if_pos]
    unfold shapeOk at hbad
    simp only [Bool.and_eq_true, Bool.or_eq_true, Bool.not_eq_true'] at hbad ⊢
    by_cases h1 : jtruthy d.users = true <;>
      by_cases h2 : jtruthy d.time_entries = true <;>
      by_cases h3 : jisArray d.users = true <;>
      by_cases h4 : jisArray d.time_entries = true <;>
      simp_all
  · intro hok
    unfold shapeOk at hok
    simp only [Bool.and_eq_true] at hok
    obtain ⟨⟨⟨h1, h2⟩, h3⟩, h4⟩ := hok
    unfold handleImportData
    rw [if_neg (by simp [h1, h2, h3, h4])]
    refine ⟨rfl, ?_, ?_⟩
    · intro k
      rw [show (jrecords d.users).foldl importUserStep s.users
          = (jrecords d.users).foldl (writeStep userWriteOf) s.users by
        rw [importUserStep_eq]]
      show lookupA ((jrecords d.users).foldl (writeStep userWriteOf) s.users) k =
        lastWriteLookup ((jrecords d.users).filterMap userWriteOf) k
          (lookupA s.users k)
      exact lookup_foldl_write userWriteOf (jrecords d.users) s.users k
    · intro k
      rw [show (jrecords d.time_entries).foldl importEntryStep s.time_entries
          = (jrecords d.time_entries).foldl (writeStep entryWriteOf) s.time_entries by
        rw [importEntryStep_eq]]
      show lookupA
          ((jrecords d.time_entries).foldl (writeStep entryWriteOf) s.time_entries) k =
        lastWriteLookup ((jrecords d.time_entries).filterMap entryWriteOf) k
          (lookupA s.time_entries k)
      exact lookup_foldl_write entryWriteOf (jrecords d.time_entries) s.time_entries k

/-- C10: during import, a time-entry record having an `id` but no
`timestamp` field is silently skipped (the entries collection is left
unchanged), while a user record is written on the strength of its `id`
alone. -/
theorem c10_import_timestamp_required (s : Store) (i j : String)
    (fs gs : List (String × String)) (_hi : i ≠ "") (hj : j ≠ "") :
    (handleImportData ⟨.arr [⟨some j, none, gs⟩], .arr [⟨some i, none, fs⟩]⟩ s).1 = true ∧
    (handleImportData ⟨.arr [⟨some j, none, gs⟩], .arr [⟨some i, none, fs⟩]⟩ s).2.time_entries
      = s.time_entries ∧
    lookupA (handleImportData ⟨.arr [⟨some j, none, gs⟩], .arr [⟨some i, none, fs⟩]⟩ s).2.users j
      = some (none, gs) := by
  unfold handleImportData
  rw [if_neg (by simp [jtruthy, jisArray])]
  refine ⟨rfl, ?_, ?_⟩
  · show (jrecords (JField.arr [⟨some i, none, fs⟩])).foldl importEntryStep s.time_entries
      = s.time_entries
    simp [jrecords, importEntryStep, truthyStr]
  · show lookupA ((jrecords (JField.arr [⟨some j, none, gs⟩])).foldl importUserStep s.users) j
      = some (none, gs)
    simp only [jrecords, List.foldl_cons, List.foldl_nil]
    unfold importUserStep
    simp only [if_pos hj]
    rw [lookupA_upsertA, if_pos rfl]
    rfl

/-- C8 witness: a backup with no `users` field is rejected without writing,
and a well-shaped backup succeeds. -/
theorem c8_witness :
    handleImportData exC8bad exStore = (false, exStore) ∧
    (handleImportData exC8good exStore).1 = true :=
  ⟨(c8_import_amended exC8bad exStore).1 (by decide),
   ((c8_import_amended exC8good exStore).2 (by decide)).1⟩

/-- C8 counterexample: a well-shaped backup containing a time-entry record
with id `"e1"` but no `timestamp` passes the shape check and succeeds, yet
nothing is stored at `"e1"` — the record carrying an `id` did not overwrite
the stored record at that identifier, contrary to the claim as stated. -/
theorem c8_counterexample :
    shapeOk exC8good = true ∧
    (handleImportData exC8good exStore).1 = true ∧
    (⟨some "e1", none, []⟩ : ImportRec) ∈ jrecords exC8good.time_entries ∧
    lookupA (handleImportData exC8good exStore).2.time_entries "e1" = none := by
  refine ⟨rfl, rfl, ?_, rfl⟩
  decide

/-- C10 witness: at the empty store, importing a user record `{id "u"}` and
a time-entry record `{id "e"}` (no timestamp) succeeds, leaves the entries
collection unchanged and stores the user. -/
theorem c10_witness :
    (handleImportData ⟨.arr [⟨some "u", none, []⟩], .arr [⟨some "e", none, []⟩]⟩
        exStore).1 = true ∧
    (handleImportData ⟨.arr [⟨some "u", none, []⟩], .arr [⟨some "e", none, []⟩]⟩
        exStore).2.time_entries = exStore.time_entries ∧
    lookupA (handleImportData ⟨.arr [⟨some "u", none, []⟩], .arr [⟨some "e", none, []⟩]⟩
        exStore).2.users "u" = some (none, []) :=
  c10_import_timestamp_required exStore "e" "u" [] [] (by decide) (by decide)

/-! ## Helper lemmas: permutation invariance of the aggregator -/

/-- Sorting a filtered sublist by timestamp yields the same list for any
two permutations of the input, provided all timestamps are distinct. -/
theorem filter_sorted_eq_of_perm (l₁ l₂ : List TimeEntry)
    (hp : List.Perm l₁ l₂) (hts₂ : (l₂.map (fun e => e.timestamp)).Nodup)
    (p : TimeEntry → Bool) :
    sortByTime (l₁.filter p) = sortByTime (l₂.filter p) := by
  apply eq_of_perm_of_sorted_of_nodup_keys (fun e => e.timestamp)
  · exact (sortK_perm _ _).trans ((hp.filter p).trans (sortK_perm _ _).symm)
  · exact sortK_pairwise _ _
  · exact sortK_pairwise _ _
  · have hsub : List.Sublist ((l₂.filter p).map (fun e => e.timestamp))
        (l₂.map (fun e => e.timestamp)) :=
      (List.filter_sublist l₂).map _
    have hnf : ((l₂.filter p).map (fun e => e.timestamp)).Nodup :=
      hts₂.sublist hsub
    exact (((sortK_perm (fun e => e.timestamp) (l₂.filter p)).map _).nodup_iff).mpr hnf

/-- C4 (amended): two inputs listing the same set of clock events in any
order yield identical day records — canonical slots, hours, observations
and `sourceEvents` included — provided the events' timestamps are pairwise
distinct.  When two events share a timestamp, the stable sort preserves
their listing order, so the concatenated observation (and the order of
`sourceEvents`) can differ between the two listings (see the
counterexample). -/
theorem c4_aggregator_permutation_invariance (w : ℚ) (l₁ l₂ : List TimeEntry)
    (hp : List.Perm l₁ l₂) (hts : (l₁.map (fun e => e.timestamp)).Nodup) :
    processedDailyEntries w l₁ = processedDailyEntries w l₂ := by
  have hts₂ : (l₂.map (fun e => e.timestamp)).Nodup :=
    ((hp.map _).nodup_iff).mp hts
  have hF : ∀ k : Int,
      mkDayRec w (l₂.filter (fun e => dayKey e.timestamp = k)) =
      mkDayRec w (l₁.filter (fun e => dayKey e.timestamp = k)) := by
    intro k
    unfold mkDayRec
    rw [filter_sorted_eq_of_perm l₁ l₂ hp hts₂]
  have hG₁ : groupByDay l₁ =
      ((groupByDay l₁).map Prod.fst).map
        (fun k => (k, l₁.filter (fun e => dayKey e.timestamp = k))) :=
    assoc_eq_map_keys _ _ (fun k g hkg => (group_content hkg).1)
  have hG₂ : groupByDay l₂ =
      ((groupByDay l₂).map Prod.fst).map
        (fun k => (k, l₂.filter (fun e => dayKey e.timestamp = k))) :=
    assoc_eq_map_keys _ _ (fun k g hkg => (group_content hkg).1)
  have hkeys : List.Perm ((groupByDay l₁).map Prod.fst)
      ((groupByDay l₂).map Prod.fst) := by
    rw [List.perm_ext_iff_of_nodup (keys_nodup_groupByDay l₁) (keys_nodup_groupByDay l₂)]
    intro k
    rw [mem_keys_groupByDay, mem_keys_groupByDay]
    have hpf := hp.filter (fun e => decide (dayKey e.timestamp = k))
    constructor
    · intro h1 hnil
      rw [hnil] at hpf
      exact h1 (List.Perm.eq_nil hpf)
    · intro h2 hnil
      rw [hnil] at hpf
      exact h2 (List.Perm.eq_nil hpf.symm)
  have hdates : ((groupByDay l₂).map (fun g => mkDayRec w g.2)).map (fun r => r.date)
      = (groupByDay l₂).map Prod.fst := by
    rw [List.map_map]
    apply List.map_congr_left
    intro g hg
    obtain ⟨k, gg⟩ := g
    obtain ⟨hcontent, hne⟩ := group_content hg
    show (mkDayRec w gg).date = k
    apply date_mkDayRec w hne
    intro e he
    rw [hcontent] at he
    simpa using (List.mem_filter.mp he).2
  unfold processedDailyEntries
  apply eq_of_perm_of_sorted_of_nodup_keys (fun r => -r.date)
  · refine (sortK_perm _ _).trans (List.Perm.trans ?_ (sortK_perm _ _).symm)
    have hR₁ : (groupByDay l₁).map (fun g => mkDayRec w g.2)
        = ((groupByDay l₁).map Prod.fst).map
            (fun k => mkDayRec w (l₁.filter (fun e => dayKey e.timestamp = k))) := by
      conv_lhs => rw [hG₁]
      rw [List.map_map]
      rfl
    have hR₂ : (groupByDay l₂).map (fun g => mkDayRec w g.2)
        = ((groupByDay l₂).map Prod.fst).map
            (fun k => mkDayRec w (l₁.filter (fun e => dayKey e.timestamp = k))) := by
      conv_lhs => rw [hG₂]
      rw [List.map_map]
      apply List.map_congr_left
      intro k _
      exact hF k
    rw [hR₁, hR₂]
    exact hkeys.map _
  · exact sortK_pairwise _ _
  · exact sortK_pairwise _ _
  · have h1 : (((groupByDay l₂).map (fun g => mkDayRec w g.2)).map
        (fun r => r.date)).Nodup := by
      rw [hdates]
      exact keys_nodup_groupByDay l₂
    have h2 : (((groupByDay l₂).map (fun g => mkDayRec w g.2)).map
        (fun r => -r.date)).Nodup := by
      rw [show (fun r : DayRec => -r.date) = (Neg.neg ∘ fun r => r.date) from rfl,
        ← List.map_map]
      exact h1.map neg_injective
    exact (((sortK_perm (fun r => -r.date)
      ((groupByDay l₂).map (fun g => mkDayRec w g.2))).map _).nodup_iff).mpr h2

/-- C4 witness: the two listings of a concrete two-event day with distinct
timestamps aggregate to the same records. -/
theorem c4_witness : processedDailyEntries 8 exC4c = processedDailyEntries 8 exC4d :=
  c4_aggregator_permutation_invariance 8 exC4c exC4d (List.Perm.swap _ _ _) (by decide)

/-- C4 counterexample: two listings of the same two-event set (equal
timestamps, notes `"a"` and `"b"`) produce different day records — the
concatenated observation comes out `"a; b"` in one order and `"b; a"` in
the other — so identical event sets do not always yield identical records. -/
theorem c4_counterexample :
    List.Perm exC4a exC4b ∧
    processedDailyEntries 8 exC4a ≠ processedDailyEntries 8 exC4b := by
  constructor
  · exact List.Perm.swap _ _ _
  · intro h
    have ha : (processedDailyEntries 8 exC4a).map (fun r => r.observation)
        = ["a; b"] := rfl
    have hb : (processedDailyEntries 8 exC4b).map (fun r => r.observation)
        = ["b; a"] := rfl
    rw [h, hb] at ha
    exact absurd ha (by decide)
